import Mathlib

/-!
Verification development for the `xmake.py` build orchestrator
(`src/scripts/build/xmake.py`).

The embedding below translates the script's pure path arithmetic, its rule
loader, its toolchain-command construction (`do_cpp`) and its two loops
(the repository-root walk and the scheduling loop) into executable Lean
definitions.  Filesystem paths are modelled structurally: a `PPath` carries
an absolute-root flag (pathlib's `is_absolute`) and the list of name
components.  Potentially non-terminating `while` loops are embedded as
fuel-indexed recursions returning `Option`, where `none` means the loop has
not terminated within the given fuel; a result that is `none` for every
fuel is a diverging run.  Shelling out to the toolchain is modelled by an
oracle `runner : List String → Int` giving each command line its exit
status, exactly the information `subprocess.run` reports back.
-/

namespace Xmake

/-- Structural model of a `pathlib` pure path: the `absRoot` flag plays the
role of `is_absolute()` (the path is anchored, be it at `/` or at the
virtual `//` root) and `parts` is the list of name components after the
anchor. -/
structure PPath where
  absRoot : Bool
  parts : List String
deriving DecidableEq, Repr

/-- The `/` join of pure paths: joining with an absolute right operand
replaces the left operand, otherwise the components are concatenated. -/
def pjoin (p q : PPath) : PPath :=
  if q.absRoot then q else ⟨p.absRoot, p.parts ++ q.parts⟩

/-- Render a path back to a string, for building toolchain command lines
(the script's `str(path)`). -/
def rstr (p : PPath) : String :=
  (if p.absRoot then "/" else "") ++ String.intercalate "/" p.parts

/-- Drop the extension of a file name (everything from the last dot on),
the first half of `PurePath.with_suffix`. -/
def dropExt (s : String) : String :=
  let cs := s.toList
  if cs.contains '.' then ⟨((cs.reverse.dropWhile (· ≠ '.')).drop 1).reverse⟩ else s

/-- `PurePath.with_suffix`: replace the extension of the last component. -/
def with_suffix (p : PPath) (suf : String) : PPath :=
  ⟨p.absRoot, p.parts.dropLast ++ [dropExt (p.parts.getLastD "") ++ suf]⟩

/-- `CONFIG = '.git'`: the repository marker directory name. -/
def CONFIG : String := ".git"

/-- `OUTDIR = '.out'`: the per-directory build-output subdirectory. -/
def OUTDIR : String := ".out"

/-- `repo_abs_path()`: walk parent-by-parent from the working directory
until a directory containing the marker is found.  A directory is the list
of its components from the filesystem root, so the parent is `dropLast`
(and the root `[]` is its own parent, as in `pathlib`).  `hasMarker d`
models `(d / CONFIG).exists()`.  The `while` loop is embedded with fuel:
`none` means the loop is still running after `fuel` iterations. -/
def repo_abs_path (hasMarker : List String → Bool) : Nat → List String → Option (List String)
  | 0, _ => none
  | fuel + 1, d => if hasMarker d then some d else repo_abs_path hasMarker fuel d.dropLast

/-- The repository-root walk diverges from `d`: no amount of fuel makes it
return. -/
def repo_loops (hasMarker : List String → Bool) (d : List String) : Prop :=
  ∀ fuel, repo_abs_path hasMarker fuel d = none

/-- `prefix_to_rel_path`: `prefix.relative_to(PurePath('//'))` — strips the
root anchor; raises (`none`) when the prefix is not absolute. -/
def prefix_to_rel_path (p : PPath) : Option PPath :=
  if p.absRoot then some ⟨false, p.parts⟩ else none

/-- `rel_path_to_prefix`: `PurePath('//') / rel_path` — re-anchors a
relative path at the virtual root. -/
def rel_path_to_prefix (r : PPath) : PPath :=
  pjoin ⟨true, []⟩ r

/-- `prefix_to_abs_path`: `repo_abs_path() / prefix_to_rel_path(prefix)`,
with the repository root given by its component list. -/
def prefix_to_abs_path (root : List String) (p : PPath) : Option PPath :=
  ( prefix_to_rel_path p).map (fun r => pjoin ⟨true, root⟩ r)

/-- `path.relative_to(root)`: strips the repository root from an absolute
path; raises (`none`) when the root is not a prefix of the path. -/
def relative_to_root (root : List String) (path : PPath) : Option PPath :=
  if path.absRoot = true ∧ root <+: path.parts then
    some ⟨false, path.parts.drop root.length⟩
  else none

/-- Converting a real absolute path back to a prefix, the composition the
script performs as `rel_path_to_prefix(d.relative_to(repo_abs_path()))`. -/
def path_to_prefix (root : List String) (path : PPath) : Option PPath :=
  (relative_to_root root path).map rel_path_to_prefix

/-- `prefix_to_abs_out_name` without the filesystem lookup: from the
absolute path of a target, form `parent / OUTDIR / name`. -/
def out_of (abs : PPath) : PPath :=
  ⟨abs.absRoot, abs.parts.dropLast ++ [OUTDIR, abs.parts.getLastD ""]⟩

/-- `prefix_to_abs_out_name(prefix)`: the output artifact location of a
target prefix. -/
def prefix_to_abs_out_name (root : List String) (p : PPath) : Option PPath :=
  (prefix_to_abs_path root p).map out_of

/-- Canonicalization of one dependency reference in `load_prefix`:
`dep_path if dep_path.is_absolute() else prefix / dep_path`. -/
def canonicalize_dep (pre dep : PPath) : PPath :=
  if dep.absRoot then dep else pjoin pre dep

/-- A raw rule record as parsed from `xmake.yml`: every key may be absent.
Dependency references are already parsed into path values (the YAML/string
layer is the external parser per the design; `PurePath(dep)` keeps a bare
name relative and a `//`-rooted reference absolute). -/
structure RawProps where
  main : Option Bool
  hdrs : Option (List String)
  srcs : Option (List String)
  deps : Option (List PPath)
deriving DecidableEq, Repr

/-- A rule record after `load_prefix`: only `deps` has been touched —
canonicalized and collapsed to a set (modelled as a deduplicated list);
the other keys keep their raw, possibly-absent values until `do_cpp`
defaults them. -/
structure LoadedProps where
  main : Option Bool
  hdrs : Option (List String)
  srcs : Option (List String)
  deps : List PPath
deriving DecidableEq, Repr

/-- `load_prefix(prefix)` applied to the parsed contents of the directory's
rule file: each declared name is qualified with the directory prefix, and
its `deps` entry — defaulted to the empty list when the key is absent — is
canonicalized and collapsed to a set. -/
def load_prefix (pre : PPath) (rules : List (String × RawProps)) :
    List (PPath × LoadedProps) :=
  rules.map (fun nr =>
    let canonical_name := pjoin pre ⟨false, [nr.1]⟩
    let deps := nr.2.deps.getD []
    let canonical_deps := (deps.map (fun dp => canonicalize_dep pre dp)).dedup
    (canonical_name, ⟨nr.2.main, nr.2.hdrs, nr.2.srcs, canonical_deps⟩))

/-- `CC = 'clang++'`. -/
def CC : String := "clang++"

/-- `AR = 'ar'`. -/
def AR : String := "ar"

/-- `OPT = '-O3'`. -/
def OPT : String := "-O3"

/-- `STD = '-std=c++20'`. -/
def STD : String := "-std=c++20"

/-- `PTHREAD = '-pthread'`. -/
def PTHREAD : String := "-pthread"

/-- `INCLUDE = '-I' + str(repo_abs_path())`. -/
def include_flag (root : List String) : String :=
  "-I" ++ rstr ⟨true, root⟩

/-- `cmd_run(command)`: print the command, run the subprocess, and hand
back what `subprocess.run` reports — the command and its exit status.  The
script ignores the returned value entirely. -/
def cmd_run (runner : List String → Int) (command : List String) :
    List String × Int :=
  (command, runner command)

/-- The object file produced for one source of a target:
`(target_out / src).with_suffix('.o')`. -/
def obj_of (rule_dir : PPath) (src : String) : String :=
  rstr (with_suffix (pjoin (pjoin rule_dir ⟨false, [OUTDIR]⟩) ⟨false, [src]⟩) ".o")

/-- The compiler invocation for one source of a target. -/
def compile_cmd (root : List String) (rule_dir : PPath) (src : String) :
    List String :=
  [CC, OPT, STD, include_flag root, "-c",
    rstr (pjoin rule_dir ⟨false, [src]⟩), "-o", obj_of rule_dir src]

/-- The archive artifact of one dependency:
`prefix_to_abs_out_name(dep).with_suffix('.a')`. -/
def dep_archive (root : List String) (dep : PPath) : Option String :=
  (prefix_to_abs_out_name root dep).map (fun a => rstr (with_suffix a ".a"))

/-- The archive artifacts of all dependencies, in order; a dependency whose
prefix is not absolute makes the path conversion raise (`none`). -/
def dep_archives (root : List String) : List PPath → Option (List String)
  | [] => some []
  | d :: rest =>
    match dep_archive root d, dep_archives root rest with
    | some a, some rest' => some (a :: rest')
    | _, _ => none

/-- `do_cpp(name, props)`: default the optional keys, compile each source
to an object, gather the dependency archives, and finally either link an
executable (when `main`) or archive — the final command receives `objects`,
which is the source objects followed by the dependency archives.  The
result is the sequence of commands issued, each paired with the exit
status the subprocess oracle reports; `none` models the exception raised
when a path conversion fails.  (`mkdir` of the output directory is a
filesystem side effect with no bearing on the commands and is not
modelled.) -/
def do_cpp (runner : List String → Int) (root : List String) (name : PPath)
    (props : LoadedProps) : Option (List (List String × Int)) :=
  match prefix_to_abs_path root name with
  | none => none
  | some abs =>
    match dep_archives root props.deps with
    | none => none
    | some deparcs =>
      let rule_dir : PPath := ⟨abs.absRoot, abs.parts.dropLast⟩
      let srcs := props.srcs.getD []
      let objects := srcs.map (obj_of rule_dir) ++ deparcs
      let final :=
        if props.main.getD false then
          [CC, PTHREAD, "-o", rstr (out_of abs)] ++ objects
        else
          [AR, "rcsuUPT", rstr (with_suffix (out_of abs) ".a")] ++ objects
      some ((srcs.map (compile_cmd root rule_dir) ++ [final]).map (cmd_run runner))

/-- Python set equality of two membership collections (the scheduling
loop's `targets != done_targets` guard compares sets, so order and
multiplicity are irrelevant). -/
def set_eq (a b : List PPath) : Prop :=
  (∀ x ∈ a, x ∈ b) ∧ (∀ x ∈ b, x ∈ a)

instance (a b : List PPath) : Decidable (set_eq a b) :=
  inferInstanceAs (Decidable (_ ∧ _))

/-- The discovered-target set: the fixpoint discovery loop records every
key of `prop_dict` into `targets`, so at the scheduler's entry the
discovered targets are exactly the keys of the graph. -/
def targets_of (g : List (PPath × LoadedProps)) : List PPath :=
  g.map Prod.fst

/-- One item of the scheduler's inner `for` loop: when every dependency of
the target is already done and the target itself is not, execute it
(append it to the execution trace) and add it to `done_targets`. -/
def sched_step (st : List PPath × List (PPath × LoadedProps))
    (tp : PPath × LoadedProps) : List PPath × List (PPath × LoadedProps) :=
  if (∀ d ∈ tp.2.deps, d ∈ st.1) ∧ tp.1 ∉ st.1 then
    (st.1 ++ [tp.1], st.2 ++ [tp])
  else st

/-- One full pass of the scheduler over `prop_dict.items()`. -/
def sched_pass (g : List (PPath × LoadedProps))
    (st : List PPath × List (PPath × LoadedProps)) :
    List PPath × List (PPath × LoadedProps) :=
  g.foldl sched_step st

/-- The scheduling loop `while targets != done_targets`, embedded with
fuel: `none` means the loop is still running after `fuel` guard checks.
The state is `done_targets` together with the trace of executed targets. -/
def sched (g : List (PPath × LoadedProps)) (targets : List PPath) :
    Nat → List PPath × List (PPath × LoadedProps) →
    Option (List PPath × List (PPath × LoadedProps))
  | 0, _ => none
  | fuel + 1, st =>
    if set_eq targets st.1 then some st
    else sched g targets fuel (sched_pass g st)

/-- The scheduler run, from the empty completion set and empty trace. -/
def run (g : List (PPath × LoadedProps)) (targets : List PPath)
    (fuel : Nat) : Option (List PPath × List (PPath × LoadedProps)) :=
  sched g targets fuel ([], [])

/-- The scheduling loop diverges on this graph: no fuel makes it return. -/
def sched_loops (g : List (PPath × LoadedProps)) (targets : List PPath) : Prop :=
  ∀ fuel, run g targets fuel = none

/-- The trace of executed targets respects dependencies: threading the
completion set through the trace, every target's dependencies are in the
completion set — i.e. were executed strictly earlier — at the moment the
target itself is executed. -/
def dep_ordered (done : List PPath) : List (PPath × LoadedProps) → Bool
  | [] => true
  | tp :: rest =>
    decide (∀ d ∈ tp.2.deps, d ∈ done) && dep_ordered (done ++ [tp.1]) rest

/-- The dependency graph is acyclic: some rank function strictly decreases
along every dependency edge (for a finite graph this is equivalent to the
absence of directed cycles). -/
def Acyclic (g : List (PPath × LoadedProps)) : Prop :=
  ∃ rank : PPath → Nat, ∀ tp ∈ g, ∀ d ∈ tp.2.deps, rank d < rank tp.1

/-- Every referenced dependency is a defined target of the graph. -/
def FullyDefined (g : List (PPath × LoadedProps)) : Prop :=
  ∀ tp ∈ g, ∀ d ∈ tp.2.deps, d ∈ targets_of g

instance (g : List (PPath × LoadedProps)) : Decidable (FullyDefined g) := by
  unfold FullyDefined
  infer_instance

/-- The per-target command logs of an execution trace, concatenated in
order; `none` models the exception raised if a `do_cpp` invocation fails
on a malformed path. -/
def run_logs (runner : List String → Int) (root : List String) :
    List (PPath × LoadedProps) → Option (List (List String × Int))
  | [] => some []
  | tp :: rest =>
    (do_cpp runner root tp.1 tp.2).bind (fun l =>
      (run_logs runner root rest).map (fun ls => l ++ ls))

/-- A whole build run: the scheduling loop followed by the commands its
executions issue, with their exit statuses.  (In the script the commands
are issued as targets complete; the commands and statuses are the same
either way, since the loop never inspects `do_cpp`'s outcome.) -/
def build_run (runner : List String → Int) (root : List String)
    (g : List (PPath × LoadedProps)) (targets : List PPath) (fuel : Nat) :
    Option (List PPath × List (PPath × LoadedProps) × List (List String × Int)) :=
  (run g targets fuel).bind (fun dt =>
    (run_logs runner root dt.2).map (fun logs => (dt.1, dt.2, logs)))

/-- Forget the exit statuses of a build-run outcome, keeping the completion
set, the trace and the commands issued. -/
def strip_statuses
    (res : List PPath × List (PPath × LoadedProps) × List (List String × Int)) :
    List PPath × List (PPath × LoadedProps) × List (List String) :=
  (res.1, res.2.1, res.2.2.map Prod.fst)

/-! ## Helper lemmas -/

/-- If no ancestor of `d` (including `d` itself and the root `[]`) has the
marker, the repository-root walk returns nothing at any fuel. -/
lemma repo_walk_diverges_of_no_marker (hasMarker : List String → Bool) :
    ∀ (fuel : Nat) (d : List String), (∀ k, hasMarker (List.take k d) = false) →
    repo_abs_path hasMarker fuel d = none := by
  intro fuel
  induction fuel with
  | zero => intro d _; rfl
  | succ n ih =>
    intro d h
    have hd : hasMarker d = false := by simpa [List.take_length] using h d.length
    simp only [repo_abs_path, hd, Bool.false_eq_true, if_false]
    refine ih d.dropLast (fun k => ?_)
    rw [List.dropLast_eq_take, List.take_take]
    exact h _

/-! ## C6: absence of the dependency key -/

/-- C6 counterexample: a rule record with no `deps` key loads successfully,
with the dependency set defaulted to empty — no error of any kind is
raised, refuting the claim that absence raises a `RuleDefinitionError`. -/
theorem claim_C6_counterexample :
    load_prefix ⟨true, ["z"]⟩ [("t", ⟨none, none, none, none⟩)] =
      [(⟨true, ["z", "t"]⟩, ⟨none, none, none, []⟩)] := by
  decide

/-- C6 (amended): a declared target whose record lacks the dependencies key
is loaded successfully with an empty dependency set — the key is optional
and defaulted, not required. -/
theorem claim_C6 (pre : PPath) (rules : List (String × RawProps))
    (nr : String × RawProps) (hmem : nr ∈ rules) (hdeps : nr.2.deps = none) :
    (pjoin pre ⟨false, [nr.1]⟩,
      LoadedProps.mk nr.2.main nr.2.hdrs nr.2.srcs []) ∈ load_prefix pre rules := by
  unfold load_prefix
  refine List.mem_map.mpr ⟨nr, hmem, ?_⟩
  simp [hdeps]

/-- C6 witness: the amended statement at a concrete rule file. -/
theorem claim_C6_witness :
    (("t", RawProps.mk none none none none) ∈
        [("t", RawProps.mk none none none none)] ∧
      (RawProps.mk none none none none).deps = none) ∧
    (pjoin ⟨true, ["z"]⟩ ⟨false, ["t"]⟩,
        LoadedProps.mk none none none []) ∈
      load_prefix ⟨true, ["z"]⟩ [("t", RawProps.mk none none none none)] :=
  ⟨⟨by decide, rfl⟩,
    claim_C6 ⟨true, ["z"]⟩ [("t", RawProps.mk none none none none)]
      ("t", RawProps.mk none none none none) (by decide) rfl⟩

/-! ## C7: the repository-root walk -/

/-- C7 counterexample: on a filesystem with no marker anywhere, the walk
from a concrete working directory never returns, for any fuel — it loops
forever instead of failing with a `RepositoryNotFoundError`. -/
theorem claim_C7_counterexample :
    repo_loops (fun _ => false) ["home", "user"] :=
  fun fuel => repo_walk_diverges_of_no_marker _ fuel _ (fun _ => rfl)

/-- C7 (amended): `repository_root()` walks parent-by-parent from the
working directory and returns the directory once the marker is found; but
when no ancestor carries the marker, the loop never terminates (the root
is its own parent), and no `RepositoryNotFoundError` is raised. -/
theorem claim_C7 (hasMarker : List String → Bool) (d : List String) :
    (hasMarker d = true → ∀ fuel, repo_abs_path hasMarker (fuel + 1) d = some d) ∧
    ((∀ k, hasMarker (List.take k d) = false) → repo_loops hasMarker d) := by
  constructor
  · intro h fuel
    simp [repo_abs_path, h]
  · intro h fuel
    exact repo_walk_diverges_of_no_marker hasMarker fuel d h

/-- C7 witness: both halves of the amended statement at concrete inputs. -/
theorem claim_C7_witness :
    repo_abs_path (fun _ => true) 1 ["a"] = some ["a"] ∧
    repo_abs_path (fun _ => false) 5 ["a"] = none :=
  ⟨(claim_C7 (fun _ => true) ["a"]).1 rfl 0,
    (claim_C7 (fun _ => false) ["a"]).2 (fun _ => rfl) 5⟩

/-! ## C8: prefix/path round trip -/

/-- C8: for every valid (root-anchored) prefix, converting to a real path
under a fixed repository root and back yields the prefix again, both at
the absolute-path level and at the relative-path level. -/
theorem claim_C8 (root : List String) (p : PPath) (hp : p.absRoot = true) :
    (prefix_to_abs_path root p).bind ( path_to_prefix root) = some p ∧
    ( prefix_to_rel_path p).map rel_path_to_prefix = some p := by
  obtain ⟨b, parts⟩ := p
  cases hp
  constructor
  · simp [prefix_to_abs_path, prefix_to_rel_path, path_to_prefix,
      relative_to_root, rel_path_to_prefix, pjoin, List.prefix_append,
      List.drop_left]
  · simp [prefix_to_rel_path, rel_path_to_prefix, pjoin]

/-- C8 witness: the round trip at a concrete root and prefix. -/
theorem claim_C8_witness :
    (PPath.mk true ["a", "b"]).absRoot = true ∧
    (prefix_to_abs_path ["r"] ⟨true, ["a", "b"]⟩).bind ( path_to_prefix ["r"]) =
      some ⟨true, ["a", "b"]⟩ :=
  ⟨rfl, (claim_C8 ["r"] ⟨true, ["a", "b"]⟩ rfl).1⟩

/-! ## C9: dependency canonicalization -/

/-- C9: canonicalizing an already-qualified (absolute) dependency reference
yields it unchanged under any loading directory; a bare relative reference
is qualified with the loading directory's own prefix; and — the loading
prefix being itself absolute — canonicalization is idempotent. -/
theorem claim_C9 (pre dep : PPath) :
    (dep.absRoot = true → canonicalize_dep pre dep = dep) ∧
    (dep.absRoot = false → canonicalize_dep pre dep = pjoin pre dep) ∧
    (pre.absRoot = true →
      canonicalize_dep pre (canonicalize_dep pre dep) = canonicalize_dep pre dep) := by
  refine ⟨fun h => by simp [canonicalize_dep, h], fun h => by simp [canonicalize_dep, h], fun hpre => ?_⟩
  by_cases h : dep.absRoot
  · simp [canonicalize_dep, h]
  · simp [canonicalize_dep, h, pjoin, hpre]

/-- C9 witness: canonicalization at concrete qualified and bare
references. -/
theorem claim_C9_witness :
    ((PPath.mk true ["q", "d"]).absRoot = true ∧
      canonicalize_dep ⟨true, ["p"]⟩ ⟨true, ["q", "d"]⟩ = ⟨true, ["q", "d"]⟩) ∧
    ((PPath.mk false ["d"]).absRoot = false ∧
      canonicalize_dep ⟨true, ["p"]⟩ ⟨false, ["d"]⟩ =
        pjoin ⟨true, ["p"]⟩ ⟨false, ["d"]⟩) :=
  ⟨⟨rfl, (claim_C9 ⟨true, ["p"]⟩ ⟨true, ["q", "d"]⟩).1 rfl⟩,
    ⟨rfl, (claim_C9 ⟨true, ["p"]⟩ ⟨false, ["d"]⟩).2.1 rfl⟩⟩

/-! ## C2: what goes into the archiver -/

/-- When every dependency is canonical (absolute), the archive gathering
succeeds and yields exactly each dependency's `.a` artifact, in order. -/
lemma dep_archives_all_abs (root : List String) :
    ∀ (l : List PPath), (∀ d ∈ l, d.absRoot = true) →
    dep_archives root l =
      some (l.map (fun d => rstr (with_suffix (out_of ⟨true, root ++ d.parts⟩) ".a"))) := by
  intro l
  induction l with
  | nil => intro _; rfl
  | cons d rest ih =>
    intro h
    have hd : d.absRoot = true := h d (by simp)
    have harc : dep_archive root d =
        some (rstr (with_suffix (out_of ⟨true, root ++ d.parts⟩) ".a")) := by
      obtain ⟨b, parts⟩ := d
      cases hd
      simp [dep_archive, prefix_to_abs_out_name, prefix_to_abs_path,
        prefix_to_rel_path, pjoin]
    simp [dep_archives, harc, ih (fun x hx => h x (by simp [hx]))]

/-- The absolute path of a canonical (absolute) prefix under a root. -/
lemma prefix_to_abs_path_of_abs (root : List String) (p : PPath)
    (hp : p.absRoot = true) :
    prefix_to_abs_path root p = some ⟨true, root ++ p.parts⟩ := by
  obtain ⟨b, parts⟩ := p
  cases hp
  simp [prefix_to_abs_path, prefix_to_rel_path, pjoin]

/-- C2 counterexample: for a concrete non-executable target with one source
and one dependency, the final archiver command's inputs contain the
dependency's archive file, refuting the claim that only the target's own
objects are passed to the archiver. -/
theorem claim_C2_counterexample :
    (do_cpp (fun _ => 0) ["repo"] ⟨true, ["p", "t"]⟩
        ⟨none, none, some ["a.cc"], [⟨true, ["q", "d"]⟩]⟩).map (List.map Prod.fst) =
      some [["clang++", "-O3", "-std=c++20", "-I/repo", "-c", "/repo/p/a.cc",
              "-o", "/repo/p/.out/a.o"],
            ["ar", "rcsuUPT", "/repo/p/.out/t.a", "/repo/p/.out/a.o",
              "/repo/q/.out/d.a"]] ∧
    "/repo/q/.out/d.a" ∈
      (((do_cpp (fun _ => 0) ["repo"] ⟨true, ["p", "t"]⟩
          ⟨none, none, some ["a.cc"], [⟨true, ["q", "d"]⟩]⟩).getD []).map
        Prod.fst).getLastD [] := by
  constructor
  · decide
  · decide

/-- C2 (amended): for every target whose executable flag is false, the
archiving step passes to the archiver the target's own compiled object
files **together with** the archive files of all its dependencies — the
dependency archives are included among the archiver's inputs. -/
theorem claim_C2 (r : List String → Int) (root : List String) (name : PPath)
    (props : LoadedProps) (hname : name.absRoot = true)
    (hdeps : ∀ d ∈ props.deps, d.absRoot = true)
    (hmain : props.main.getD false = false) :
    ∃ cmds, do_cpp r root name props = some cmds ∧
      (cmds.map Prod.fst).getLast? =
        some ([AR, "rcsuUPT",
            rstr (with_suffix (out_of ⟨true, root ++ name.parts⟩) ".a")] ++
          ((props.srcs.getD []).map (obj_of ⟨true, (root ++ name.parts).dropLast⟩) ++
            props.deps.map
              (fun d => rstr (with_suffix (out_of ⟨true, root ++ d.parts⟩) ".a")))) := by
  have hdo : do_cpp r root name props =
      some ((((props.srcs.getD []).map
          (compile_cmd root ⟨true, (root ++ name.parts).dropLast⟩)) ++
        [[AR, "rcsuUPT",
            rstr (with_suffix (out_of ⟨true, root ++ name.parts⟩) ".a")] ++
          ((props.srcs.getD []).map (obj_of ⟨true, (root ++ name.parts).dropLast⟩) ++
            props.deps.map
              (fun d => rstr (with_suffix (out_of ⟨true, root ++ d.parts⟩) ".a")))]).map
        (cmd_run r)) := by
    simp [do_cpp, prefix_to_abs_path_of_abs root name hname,
      dep_archives_all_abs root props.deps hdeps, hmain]
  refine ⟨_, hdo, ?_⟩
  simp [cmd_run, List.map_map, Function.comp_def]

/-- C2 witness: the amended statement at the concrete target of the
counterexample. -/
theorem claim_C2_witness :
    ((PPath.mk true ["p", "t"]).absRoot = true ∧
      (∀ d ∈ [PPath.mk true ["q", "d"]], d.absRoot = true) ∧
      ((some false : Option Bool).getD false = false)) ∧
    ∃ cmds, do_cpp (fun _ => 0) ["repo"] ⟨true, ["p", "t"]⟩
        ⟨some false, none, some ["a.cc"], [⟨true, ["q", "d"]⟩]⟩ = some cmds ∧
      (cmds.map Prod.fst).getLast? =
        some ([AR, "rcsuUPT",
            rstr (with_suffix (out_of ⟨true, ["repo"] ++ ["p", "t"]⟩) ".a")] ++
          (["a.cc"].map (obj_of ⟨true, (["repo"] ++ ["p", "t"]).dropLast⟩) ++
            [PPath.mk true ["q", "d"]].map
              (fun d => rstr (with_suffix (out_of ⟨true, ["repo"] ++ d.parts⟩) ".a")))) :=
  ⟨⟨rfl, by decide, rfl⟩,
    claim_C2 (fun _ => 0) ["repo"] ⟨true, ["p", "t"]⟩
      ⟨some false, none, some ["a.cc"], [⟨true, ["q", "d"]⟩]⟩ rfl (by decide) rfl⟩

/-! ## C3 and C5: the scheduler's missing stall guard -/

/-- Target `//c/a` of the concrete two-cycle. -/
def cycA : PPath := ⟨true, ["c", "a"]⟩

/-- Target `//c/b` of the concrete two-cycle. -/
def cycB : PPath := ⟨true, ["c", "b"]⟩

/-- The concrete cyclic graph: `//c/a` and `//c/b` depend on each other. -/
def cycG : List (PPath × LoadedProps) :=
  [(cycA, ⟨none, none, none, [cycB]⟩), (cycB, ⟨none, none, none, [cycA]⟩)]

/-- C3: on the two-target cycle the scheduling loop never terminates — for
every fuel the loop is still running, and no
`CyclicOrMissingDependencyError` (which does not exist in the code) is ever
raised.  The code hangs where the claim requires a detected failure. -/
theorem claim_C3 : sched_loops cycG [cycA, cycB] := by
  intro fuel
  induction fuel with
  | zero => rfl
  | succ n ih =>
    have hpass : sched_pass cycG ([], []) = ([], []) := by decide
    have hg : ¬ set_eq [cycA, cycB] [] := by decide
    simp only [run, sched] at ih ⊢
    rw [if_neg hg, hpass]
    exact ih

/-- The target `//x/x` whose dependency is never defined. -/
def missX : PPath := ⟨true, ["x", "x"]⟩

/-- The undefined dependency reference `//y/missing`. -/
def missM : PPath := ⟨true, ["y", "missing"]⟩

/-- The concrete graph with a dependency on an undefined target. -/
def missG : List (PPath × LoadedProps) :=
  [(missX, ⟨none, none, none, [missM]⟩)]

/-- C5: when a dependency references a target never defined in its
directory's rules, the scheduling loop never terminates — the referencing
target is never executed (so indeed no artifact is produced for it), but
instead of failing with an `UndefinedTargetError` (which does not exist in
the code) the run hangs forever. -/
theorem claim_C5 : sched_loops missG [missX] := by
  intro fuel
  induction fuel with
  | zero => rfl
  | succ n ih =>
    have hpass : sched_pass missG ([], []) = ([], []) := by decide
    have hg : ¬ set_eq [missX] [] := by decide
    simp only [run, sched] at ih ⊢
    rw [if_neg hg, hpass]
    exact ih

/-! ## C4: exit statuses are ignored -/

/-- The commands a `do_cpp` invocation issues do not depend on the exit
statuses the subprocesses report. -/
lemma do_cpp_runner_indep (r₁ r₂ : List String → Int) (root : List String)
    (name : PPath) (props : LoadedProps) :
    (do_cpp r₁ root name props).map (List.map Prod.fst) =
    (do_cpp r₂ root name props).map (List.map Prod.fst) := by
  unfold do_cpp
  cases prefix_to_abs_path root name with
  | none => rfl
  | some abs =>
    cases dep_archives root props.deps with
    | none => rfl
    | some deparcs =>
      simp [cmd_run, List.map_map, Function.comp_def]

/-- The command logs of a whole trace do not depend on the exit statuses:
both runs issue the same commands, succeed together and fail together. -/
lemma run_logs_runner_indep (r₁ r₂ : List String → Int) (root : List String) :
    ∀ trace : List (PPath × LoadedProps),
    (run_logs r₁ root trace).map (List.map Prod.fst) =
    (run_logs r₂ root trace).map (List.map Prod.fst) := by
  intro trace
  induction trace with
  | nil => rfl
  | cons tp rest ih =>
    have h := do_cpp_runner_indep r₁ r₂ root tp.1 tp.2
    simp only [run_logs]
    cases h₁ : do_cpp r₁ root tp.1 tp.2 with
    | none =>
      cases h₂ : do_cpp r₂ root tp.1 tp.2 with
      | none => rfl
      | some l₂ => simp [h₁, h₂] at h
    | some l₁ =>
      cases h₂ : do_cpp r₂ root tp.1 tp.2 with
      | none => simp [h₁, h₂] at h
      | some l₂ =>
        simp only [h₁, h₂, Option.map_some'] at h
        cases hl₁ : run_logs r₁ root rest with
        | none =>
          cases hl₂ : run_logs r₂ root rest with
          | none => rfl
          | some ls₂ => simp [hl₁, hl₂] at ih
        | some ls₁ =>
          cases hl₂ : run_logs r₂ root rest with
          | none => simp [hl₁, hl₂] at ih
          | some ls₂ =>
            simp only [hl₁, hl₂, Option.map_some'] at ih
            simp only [Option.some.injEq] at h ih
            simp [h, ih]

/-- C4 (amended): toolchain invocations block and `subprocess.run` reports
the exit status back, but the script never checks it: the commands issued
by any one target and the whole build-run outcome — completion set, trace
and command sequence — are identical whatever exit statuses the toolchain
returns.  A non-zero status is ignored and the build continues; no
`ToolchainInvocationError` exists. -/
theorem claim_C4 (r₁ r₂ : List String → Int) (root : List String)
    (name : PPath) (props : LoadedProps) (g : List (PPath × LoadedProps))
    (targets : List PPath) (fuel : Nat) :
    (do_cpp r₁ root name props).map (List.map Prod.fst) =
      (do_cpp r₂ root name props).map (List.map Prod.fst) ∧
    (build_run r₁ root g targets fuel).map strip_statuses =
      (build_run r₂ root g targets fuel).map strip_statuses := by
  refine ⟨do_cpp_runner_indep r₁ r₂ root name props, ?_⟩
  unfold build_run
  cases run g targets fuel with
  | none => rfl
  | some dt =>
    have h := run_logs_runner_indep r₁ r₂ root dt.2
    cases h₁ : run_logs r₁ root dt.2 with
    | none =>
      cases h₂ : run_logs r₂ root dt.2 with
      | none => simp [h₁, h₂]
      | some ls₂ => simp [h₁, h₂] at h
    | some ls₁ =>
      cases h₂ : run_logs r₂ root dt.2 with
      | none => simp [h₁, h₂] at h
      | some ls₂ =>
        simp only [h₁, h₂, Option.map_some', Option.some.injEq] at h
        simp [strip_statuses, h₁, h₂, h]

/-- C4 counterexample: a concrete build run in which every toolchain
subprocess exits with status 1 still completes all targets — the non-zero
statuses are recorded by `subprocess.run` and then ignored, and the run
ends successfully instead of aborting with a `ToolchainInvocationError`. -/
theorem claim_C4_counterexample :
    (build_run (fun _ => 1) ["repo"]
        [(⟨true, ["p", "t"]⟩, ⟨none, none, some ["a.cc"], []⟩)]
        [⟨true, ["p", "t"]⟩] 2).map
      (fun res => (res.1, res.2.2.map Prod.snd)) =
      some ([⟨true, ["p", "t"]⟩], [1, 1]) := by
  decide

/-! ## Scheduler lemmas for C1 and C10 -/

/-- A scheduling pass only appends: the completion set and the trace grow
by a common list of newly executed graph items. -/
lemma foldl_sched_step_shape :
    ∀ (l : List (PPath × LoadedProps)) (done : List PPath)
      (tr : List (PPath × LoadedProps)),
    ∃ new, l.foldl sched_step (done, tr) = (done ++ new.map Prod.fst, tr ++ new) ∧
      ∀ x ∈ new, x ∈ l := by
  intro l
  induction l with
  | nil => intro done tr; exact ⟨[], by simp, by simp⟩
  | cons tp l ih =>
    intro done tr
    by_cases h : (∀ d ∈ tp.2.deps, d ∈ done) ∧ tp.1 ∉ done
    · obtain ⟨new, heq, hmem⟩ := ih (done ++ [tp.1]) (tr ++ [tp])
      refine ⟨tp :: new, ?_, ?_⟩
      · simp only [List.foldl_cons, sched_step, if_pos h]
        rw [heq]
        simp
      · intro x hx
        rcases List.mem_cons.mp hx with rfl | hx
        · exact List.mem_cons_self _ _
        · exact List.mem_cons_of_mem _ (hmem x hx)
    · obtain ⟨new, heq, hmem⟩ := ih done tr
      refine ⟨new, ?_, fun x hx => List.mem_cons_of_mem _ (hmem x hx)⟩
      simpa only [List.foldl_cons, sched_step, if_neg h] using heq

/-- Appending one executed target to a dependency-respecting trace keeps it
dependency-respecting exactly when the appended target's dependencies are
all among the prior completion set. -/
lemma dep_ordered_append (d0 : List PPath) (l : List (PPath × LoadedProps))
    (tp : PPath × LoadedProps) :
    dep_ordered d0 (l ++ [tp]) =
      (dep_ordered d0 l && decide (∀ d ∈ tp.2.deps, d ∈ d0 ++ l.map Prod.fst)) := by
  induction l generalizing d0 with
  | nil => simp [dep_ordered]
  | cons tp' l ih =>
    simp only [List.cons_append, dep_ordered, List.map_cons, List.append_eq]
    rw [ih (d0 ++ [tp'.1])]
    have hdec :
        decide (∀ d ∈ tp.2.deps, d ∈ d0 ++ [tp'.1] ++ List.map Prod.fst l) =
        decide (∀ d ∈ tp.2.deps, d ∈ d0 ++ tp'.1 :: List.map Prod.fst l) := by
      refine decide_eq_decide.mpr ?_
      constructor <;> intro hh d hd <;> simpa [List.append_assoc] using hh d hd
    simp [Bool.and_assoc, hdec]

/-- A scheduling pass preserves the loop invariant: the completion set is
exactly the set of targets executed so far, it has no duplicates, and the
trace respects dependencies. -/
lemma foldl_sched_step_inv :
    ∀ (l : List (PPath × LoadedProps)) (done : List PPath)
      (tr : List (PPath × LoadedProps)),
    done = tr.map Prod.fst → done.Nodup → dep_ordered [] tr = true →
    (l.foldl sched_step (done, tr)).1 = (l.foldl sched_step (done, tr)).2.map Prod.fst ∧
      (l.foldl sched_step (done, tr)).1.Nodup ∧
      dep_ordered [] (l.foldl sched_step (done, tr)).2 = true := by
  intro l
  induction l with
  | nil => intro done tr h1 h2 h3; exact ⟨h1, h2, h3⟩
  | cons tp l ih =>
    intro done tr h1 h2 h3
    by_cases h : (∀ d ∈ tp.2.deps, d ∈ done) ∧ tp.1 ∉ done
    · simp only [List.foldl_cons, sched_step, if_pos h]
      refine ih (done ++ [tp.1]) (tr ++ [tp]) (by simp [h1]) ?_ ?_
      · refine List.nodup_append.mpr ⟨h2, List.nodup_singleton _, ?_⟩
        intro a ha hb
        rcases List.mem_singleton.mp hb with rfl
        exact h.2 ha
      · rw [dep_ordered_append]
        simp only [h3, Bool.true_and, decide_eq_true_eq, List.nil_append]
        intro d hd
        exact h1 ▸ h.1 d hd
    · simpa only [List.foldl_cons, sched_step, if_neg h] using ih done tr h1 h2 h3

/-- If a full pass completes nothing, every pending target of the pass list
has a pending dependency. -/
lemma foldl_sched_step_stall :
    ∀ (l : List (PPath × LoadedProps)) (done : List PPath)
      (tr : List (PPath × LoadedProps)),
    (l.foldl sched_step (done, tr)).1 = done →
    ∀ tp ∈ l, tp.1 ∉ done → ∃ d ∈ tp.2.deps, d ∉ done := by
  intro l
  induction l with
  | nil => intro done tr _ tp htp; exact absurd htp (List.not_mem_nil _)
  | cons tp' l ih =>
    intro done tr hstall tp htp hnot
    by_cases h : (∀ d ∈ tp'.2.deps, d ∈ done) ∧ tp'.1 ∉ done
    · exfalso
      obtain ⟨new, heq, -⟩ := foldl_sched_step_shape l (done ++ [tp'.1]) (tr ++ [tp'])
      simp only [List.foldl_cons, sched_step, if_pos h, heq] at hstall
      have := congrArg List.length hstall
      simp at this
    · simp only [List.foldl_cons, sched_step, if_neg h] at hstall
      rcases List.mem_cons.mp htp with rfl | htp'
      · by_contra hc
        push_neg at hc
        exact h ⟨fun d hd => of_not_not (fun hn => hn (hc d hd)), hnot⟩
      · exact ih done tr hstall tp htp' hnot

/-- With a rank function witnessing acyclicity and a fully-defined graph, a
pass that completes nothing leaves no pending target — by strong induction
on the rank, a pending target would have an infinite strictly-descending
chain of pending dependencies. -/
lemma stall_no_pending {g : List (PPath × LoadedProps)}
    (hF : FullyDefined g) (rank : PPath → Nat)
    (hrank : ∀ tp ∈ g, ∀ d ∈ tp.2.deps, rank d < rank tp.1)
    (done : List PPath) (tr : List (PPath × LoadedProps))
    (hstall : (sched_pass g (done, tr)).1 = done) :
    ∀ (n : Nat) (t : PPath), rank t < n → t ∈ targets_of g → t ∉ done → False := by
  intro n
  induction n with
  | zero => intro t h; exact absurd h (Nat.not_lt_zero _)
  | succ n ih =>
    intro t hlt htg hnd
    obtain ⟨tp, htp, rfl⟩ := List.mem_map.mp htg
    obtain ⟨d, hd, hdnot⟩ := foldl_sched_step_stall g done tr hstall tp htp hnd
    exact ih d (by have := hrank tp htp d hd; omega) (hF tp htp d hd) hdnot

/-- Termination of the scheduling loop on an acyclic, fully-defined graph:
from any invariant-respecting state whose completion set is within the
target set, enough fuel (one unit per still-pending target plus one for
the final guard check) makes the loop return, with the completion set
equal — as a set — to the target set, and the invariants preserved. -/
lemma sched_terminates {g : List (PPath × LoadedProps)}
    (hF : FullyDefined g) (rank : PPath → Nat)
    (hrank : ∀ tp ∈ g, ∀ d ∈ tp.2.deps, rank d < rank tp.1) :
    ∀ (fuel : Nat) (done : List PPath) (tr : List (PPath × LoadedProps)),
    done = tr.map Prod.fst → done.Nodup → dep_ordered [] tr = true →
    (∀ x ∈ done, x ∈ targets_of g) →
    (targets_of g).dedup.length + 1 ≤ fuel + done.length →
    ∃ done' tr', sched g (targets_of g) fuel (done, tr) = some (done', tr') ∧
      set_eq (targets_of g) done' ∧ done' = tr'.map Prod.fst ∧
      dep_ordered [] tr' = true ∧ done'.Nodup := by
  intro fuel
  induction fuel with
  | zero =>
    intro done tr hdt hnd hord hsub hfuel
    exfalso
    have hsubd : ∀ x ∈ done, x ∈ (targets_of g).dedup :=
      fun x hx => List.mem_dedup.mpr (hsub x hx)
    have h1 : done.length ≤ (targets_of g).dedup.length := by
      calc done.length = done.toFinset.card := (List.toFinset_card_of_nodup hnd).symm
        _ ≤ (targets_of g).dedup.toFinset.card := by
            refine Finset.card_le_card (fun x hx => ?_)
            rw [List.mem_toFinset] at hx ⊢
            exact hsubd x hx
        _ = (targets_of g).dedup.length :=
            List.toFinset_card_of_nodup (List.nodup_dedup _)
    omega
  | succ n ih =>
    intro done tr hdt hnd hord hsub hfuel
    by_cases hguard : set_eq (targets_of g) done
    · exact ⟨done, tr, by simp [sched, hguard], hguard, hdt, hord, hnd⟩
    · obtain ⟨new, heq, hmem⟩ := foldl_sched_step_shape g done tr
      have hinv := foldl_sched_step_inv g done tr hdt hnd hord
      have hnew : new ≠ [] := by
        intro h0
        subst h0
        have hstall : (sched_pass g (done, tr)).1 = done := by
          simp [sched_pass, heq]
        have hpend : ∃ t ∈ targets_of g, t ∉ done := by
          by_contra hc
          push_neg at hc
          exact hguard ⟨hc, hsub⟩
        obtain ⟨t, htg, hnd'⟩ := hpend
        exact stall_no_pending hF rank hrank done tr hstall (rank t + 1) t
          (Nat.lt_succ_self _) htg hnd'
      have hpass : sched_pass g (done, tr) = (done ++ new.map Prod.fst, tr ++ new) := by
        simpa [sched_pass] using heq
      obtain ⟨hdt', hnd', hord'⟩ := hinv
      rw [show g.foldl sched_step (done, tr) = sched_pass g (done, tr) from rfl,
        hpass] at hdt' hnd' hord'
      have hsub' : ∀ x ∈ done ++ new.map Prod.fst, x ∈ targets_of g := by
        intro x hx
        rcases List.mem_append.mp hx with hx | hx
        · exact hsub x hx
        · obtain ⟨y, hy, rfl⟩ := List.mem_map.mp hx
          exact List.mem_map_of_mem _ (hmem y hy)
      have hlen : done.length + 1 ≤ (done ++ new.map Prod.fst).length := by
        have : 0 < new.length := List.length_pos.mpr hnew
        simp [List.length_append]
        omega
      have hfuel' :
          (targets_of g).dedup.length + 1 ≤ n + (done ++ new.map Prod.fst).length := by
        simp only [List.length_append] at hlen ⊢
        omega
      obtain ⟨done', tr', hrun, hseq, h1, h2, h3⟩ :=
        ih (done ++ new.map Prod.fst) (tr ++ new) hdt' hnd' hord' hsub' hfuel'
      refine ⟨done', tr', ?_, hseq, h1, h2, h3⟩
      simp only [sched, if_neg hguard, hpass]
      exact hrun

/-! ## C1: the scheduler on acyclic, fully-defined graphs -/

/-- C1: on an acyclic dependency graph in which every referenced dependency
is a defined target, the scheduling loop terminates (fuel one more than
the graph size suffices) with the completion set equal, as a set, to the
full discovered-target set; every discovered target is executed, and —
`dep_ordered` threading the completion set through the execution trace —
every target is executed strictly after all of its dependencies were added
to the completion set. -/
theorem claim_C1 (g : List (PPath × LoadedProps)) (hA : Acyclic g)
    (hF : FullyDefined g) :
    ∃ done trace, run g (targets_of g) (g.length + 1) = some (done, trace) ∧
      (∀ t, t ∈ done ↔ t ∈ targets_of g) ∧
      done = trace.map Prod.fst ∧ dep_ordered [] trace = true ∧
      ∀ t ∈ targets_of g, t ∈ trace.map Prod.fst := by
  obtain ⟨rank, hrank⟩ := hA
  have hmeasure : (targets_of g).dedup.length + 1 ≤ (g.length + 1) + 0 := by
    have h1 : (targets_of g).dedup.length ≤ (targets_of g).length :=
      (List.dedup_sublist _).length_le
    have h2 : (targets_of g).length = g.length := List.length_map _ _
    omega
  obtain ⟨done, tr, hrun, hset, hdt, hord, hnd⟩ :=
    sched_terminates hF rank hrank (g.length + 1) [] [] rfl List.nodup_nil rfl
      (fun x hx => absurd hx (List.not_mem_nil _)) hmeasure
  exact ⟨done, tr, hrun, fun t => ⟨fun h => hset.2 t h, fun h => hset.1 t h⟩,
    hdt, hord, fun t ht => hdt ▸ hset.1 t ht⟩

/-- Target `//w/a` of the concrete acyclic witness graph. -/
def exA : PPath := ⟨true, ["w", "a"]⟩

/-- Target `//w/b` of the concrete acyclic witness graph. -/
def exB : PPath := ⟨true, ["w", "b"]⟩

/-- The concrete acyclic witness graph: `//w/a` depends on `//w/b`. -/
def exG1 : List (PPath × LoadedProps) :=
  [(exA, ⟨none, none, none, [exB]⟩), (exB, ⟨none, none, none, []⟩)]

/-- C1 witness: the scheduler statement at the concrete two-target acyclic
graph. -/
theorem claim_C1_witness :
    (Acyclic exG1 ∧ FullyDefined exG1) ∧
    ∃ done trace, run exG1 (targets_of exG1) (exG1.length + 1) = some (done, trace) ∧
      (∀ t, t ∈ done ↔ t ∈ targets_of exG1) ∧
      done = trace.map Prod.fst ∧ dep_ordered [] trace = true ∧
      ∀ t ∈ targets_of exG1, t ∈ trace.map Prod.fst :=
  ⟨⟨⟨fun p => if p = exB then 0 else 1, by decide⟩, by decide⟩,
    claim_C1 exG1 ⟨fun p => if p = exB then 0 else 1, by decide⟩ (by decide)⟩

/-! ## C10: each target executed at most once -/

/-- The scheduling loop preserves the state invariant whenever it returns. -/
lemma sched_inv {g : List (PPath × LoadedProps)} (targets : List PPath) :
    ∀ (fuel : Nat) (st st' : List PPath × List (PPath × LoadedProps)),
    st.1 = st.2.map Prod.fst → st.1.Nodup → dep_ordered [] st.2 = true →
    sched g targets fuel st = some st' →
    st'.1 = st'.2.map Prod.fst ∧ st'.1.Nodup ∧ dep_ordered [] st'.2 = true := by
  intro fuel
  induction fuel with
  | zero => intro st st' _ _ _ h; exact absurd h (by simp [sched])
  | succ n ih =>
    intro st st' h1 h2 h3 h
    by_cases hguard : set_eq targets st.1
    · simp only [sched, if_pos hguard, Option.some.injEq] at h
      exact h ▸ ⟨h1, h2, h3⟩
    · simp only [sched, if_neg hguard] at h
      have hinv := foldl_sched_step_inv g st.1 st.2 h1 h2 h3
      exact ih (sched_pass g (st.1, st.2)) st' hinv.1 hinv.2.1 hinv.2.2 h

/-- C10: whenever a scheduler run returns, its execution trace — the
sequence of targets handed to the toolchain driver — contains no target
twice, and the completion set is exactly the set of executed targets:
once a target is in the completion set its build action never runs
again. -/
theorem claim_C10 (g : List (PPath × LoadedProps)) (targets : List PPath)
    (fuel : Nat) (done : List PPath) (trace : List (PPath × LoadedProps))
    (h : run g targets fuel = some (done, trace)) :
    (trace.map Prod.fst).Nodup ∧ done = trace.map Prod.fst := by
  have hinv := sched_inv targets fuel ([], []) (done, trace) rfl List.nodup_nil rfl h
  exact ⟨hinv.1 ▸ hinv.2.1, hinv.1⟩

/-- The single target `//m/c` of the concrete witness graph for C10. -/
def exC : PPath := ⟨true, ["m", "c"]⟩

/-- The concrete one-target witness graph for C10. -/
def exGC : List (PPath × LoadedProps) := [(exC, ⟨none, none, none, []⟩)]

/-- C10 witness: the at-most-once statement at a concrete run. -/
theorem claim_C10_witness :
    run exGC [exC] 2 = some ([exC], [(exC, ⟨none, none, none, []⟩)]) ∧
    (([(exC, (⟨none, none, none, []⟩ : LoadedProps))].map Prod.fst).Nodup ∧
      [exC] = [(exC, (⟨none, none, none, []⟩ : LoadedProps))].map Prod.fst) :=
  ⟨by decide, claim_C10 exGC [exC] 2 [exC] [(exC, ⟨none, none, none, []⟩)] (by decide)⟩

end Xmake
